import Mathlib

/-!
Verification of the LAZAR image-analysis core: a shallow embedding of the
power-map pipeline (`src/unnamed/part_003`) and the gem-placement sampler
(`src/lazar/assets/bedazzle.js`), with theorems settling the frozen claims.

Float arithmetic of the source is modelled over `ℚ` (exact rational
arithmetic); the transcendental parts (`Math.exp`, `Math.pow` with
non-integer exponent) are modelled over `ℝ`.
-/

namespace Lazar

/-- JavaScript `Math.round`: round half toward positive infinity,
`Math.round x = ⌊x + 1/2⌋`. -/
def jsRound (q : ℚ) : ℤ := ⌊q + 1/2⌋

/-- Storing an integer into a JavaScript `Uint8Array`: reduce modulo 2^8
(JS `ToUint8`). -/
def toUint8 (z : ℤ) : ℕ := ((z % 256 + 256) % 256).toNat

/-- Clamp `v` into `[lo, hi]`, as the source's `Math.max(lo, Math.min(hi, v))`. -/
def clampQ (lo hi v : ℚ) : ℚ := max lo (min hi v)

/-! ## Tone Mapper (LUT builder), `buildMappingLut` in `part_003`

```js
function buildMappingLut(grayValues) {
  const sorted = [...new Set(grayValues)].sort((a, b) => a - b);
  const inputLevels = [];
  for (let i = 0; i < sorted.length; i++) {
    inputLevels.push((i / (sorted.length - 1)) * 255);
  }
  const lut = new Uint8Array(256);
  for (let x = 0; x < 256; x++) {
    if (x <= inputLevels[0]) { lut[x] = sorted[0]; }
    else if (x >= inputLevels[inputLevels.length - 1]) { lut[x] = sorted[sorted.length - 1]; }
    else {
      for (let i = 0; i < inputLevels.length - 1; i++) {
        if (x >= inputLevels[i] && x <= inputLevels[i + 1]) {
          const t = (x - inputLevels[i]) / (inputLevels[i + 1] - inputLevels[i]);
          lut[x] = Math.round(sorted[i] + t * (sorted[i + 1] - sorted[i]));
          break;
        }
      }
    }
  }
  return lut;
}
```

When `sorted.length == 1` the single input level is `0/0`, which is JS `NaN`;
every `<=`/`>=` comparison against `NaN` is false.  We model the input levels
as `Option ℚ` with `none` for `NaN` (and for the out-of-range array reads
`inputLevels[0]` / `inputLevels[-1]` on an empty list, which give `undefined`,
also compare-false), and `nanLe` as the comparison. -/

/-- `[...new Set(grayValues)].sort((a,b) => a-b)`: distinct values in
ascending order (stable realisation: dedup, then sort). -/
def sortedLevels (grayValues : List ℕ) : List ℕ :=
  List.insertionSort (· ≤ ·) grayValues.dedup

/-- JS `a <= b` on possibly-NaN/undefined operands: false unless both are
real numbers. -/
def nanLe : Option ℚ → Option ℚ → Bool
  | some a, some b => decide (a ≤ b)
  | _, _ => false

/-- The `inputLevels` array: entry `i` is `(i / (sorted.length - 1)) * 255`;
for a single level this is `0/0 = NaN` (modelled as `none`). -/
def inputLevels (n : ℕ) : List (Option ℚ) :=
  (List.range n).map fun (i : ℕ) =>
    if n = 1 then none else some ((i : ℚ) / ((n : ℚ) - 1) * 255)

/-- The inner interpolation loop: first segment `i` with
`inputLevels[i] ≤ x ≤ inputLevels[i+1]` yields the rounded linear
interpolation between `sorted[i]` and `sorted[i+1]`. -/
def segValue (sorted : List ℕ) (lvls : List (Option ℚ)) (x : ℕ) : Option ℤ :=
  (List.range (lvls.length - 1)).findSome? fun i =>
    match lvls.getD i none, lvls.getD (i + 1) none with
    | some a, some b =>
        if a ≤ (x : ℚ) ∧ (x : ℚ) ≤ b then
          some (jsRound ((sorted.getD i 0 : ℚ) +
            ((x : ℚ) - a) / (b - a) * ((sorted.getD (i + 1) 0 : ℚ) - (sorted.getD i 0 : ℚ))))
        else none
    | _, _ => none

/-- Body of the LUT builder on an already sorted, deduplicated level list. -/
def lutFromSorted (sorted : List ℕ) (x : ℕ) : ℕ :=
  let lvls := inputLevels sorted.length
  if nanLe (some (x : ℚ)) (lvls.getD 0 none) then
    toUint8 (sorted.getD 0 0)
  else if nanLe (lvls.getD (lvls.length - 1) none) (some (x : ℚ)) then
    toUint8 (sorted.getD (sorted.length - 1) 0)
  else
    match segValue sorted lvls x with
    | some v => toUint8 v
    | none => 0

/-- `buildMappingLut` of `part_003`: LUT entry for each 8-bit input `x`. -/
def buildMappingLut (grayValues : List ℕ) : ℕ → ℕ :=
  lutFromSorted (sortedLevels grayValues)

/-- Input breakpoint `i` of a LUT built from `n` levels (the value of
`inputLevels[i]` for `n ≥ 2`): `(i / (n − 1)) · 255`. -/
def lvlQ (n i : ℕ) : ℚ := (i : ℚ) / ((n : ℚ) - 1) * 255

/-- The linear interpolation value of segment `i` at input `x`:
`sorted[i] + (x − lvl i)/(lvl (i+1) − lvl i) · (sorted[i+1] − sorted[i])`. -/
def interpQ (sorted : List ℕ) (n i : ℕ) (x : ℚ) : ℚ :=
  (sorted.getD i 0 : ℚ) +
    (x - lvlQ n i) / (lvlQ n (i + 1) - lvlQ n i) *
      ((sorted.getD (i + 1) 0 : ℚ) - (sorted.getD i 0 : ℚ))

/-- Index of the interpolation segment the inner loop selects for input `x`
(the least `i` with `x ≤ inputLevels[i+1]`), in closed form. -/
def segIdx (n x : ℕ) : ℕ := (x * (n - 1) + 254) / 255 - 1

/-- The gray-value acceptance test of `readSettings` in `part_003`: parseable
entries are filtered to `0 ≤ n ≤ 255`, and the list is adopted as the
calibration levels whenever at least two entries remain (duplicates are NOT
collapsed before this count). -/
def acceptsGrayValues (l : List ℤ) : Bool :=
  decide (2 ≤ (l.filter fun n => decide (0 ≤ n) && decide (n ≤ 255)).length)

/-! ## CLAHE, `applyClahe` in `part_003`

Tile grid: `tilesX/Y = max(1, ⌊dim / tileSize⌋)`, fractional tile extents
`tileW = width / tilesX`; per tile a 256-bin histogram is built, optionally
clipped to `max(1, clipLimit·numPixels/256)` with uniform redistribution of
the excess, integrated into a CDF and normalised into an 8-bit lookup table;
each output pixel bilinearly blends the tables of its four surrounding tile
centres.  Pixel data is an index-to-value function `gray : ℕ → ℕ`. -/

/-- Tile count along one axis: `Math.max(1, Math.floor(dim / tileSize))`. -/
def tileCount (dim tileSize : ℕ) : ℕ := max 1 (dim / tileSize)

/-- Rounded tile edge: `Math.round(t · (dim / tiles))` for tile index `t`
(`x0`/`x1`/`y0`/`y1` in the source). -/
def tileEdge (dim tiles t : ℕ) : ℕ :=
  (jsRound ((t : ℚ) * ((dim : ℚ) / (tiles : ℚ)))).toNat

/-- The 256-bin histogram of one tile: bin `b` counts the tile's pixels of
value `b` (stored as a float in the source, hence `ℚ`-valued). -/
def tileHist (gray : ℕ → ℕ) (w x0 x1 y0 y1 : ℕ) (b : ℕ) : ℚ :=
  ∑ r ∈ Finset.Ico y0 y1, ∑ c ∈ Finset.Ico x0 x1,
    if gray (r * w + c) = b then 1 else 0

/-- Histogram clipping: bins above `max(1, clipLimit·numPixels/256)` are cut
to the limit and the total excess is redistributed uniformly over all 256
bins; disabled (identity) when `clipLimit ≤ 0`. -/
def clipHist (hist : ℕ → ℚ) (numPixels clipLimit : ℚ) : ℕ → ℚ :=
  if 0 < clipLimit then
    let limit := max 1 (clipLimit * numPixels / 256)
    let excess := ∑ i ∈ Finset.range 256, max 0 (hist i - limit)
    fun b => min (hist b) limit + excess / 256
  else hist

/-- Cumulative distribution of a (clipped) histogram: `cdf[i] = Σ_{j≤i} h j`. -/
def cdfQ (h : ℕ → ℚ) (i : ℕ) : ℚ := ∑ j ∈ Finset.range (i + 1), h j

/-- Per-tile remapping table: `lut[i] = round((cdf[i]−cdf[0])/(cdf[255]−cdf[0])·255)`
stored in a `Uint8Array` (for the degenerate `cdf[255] = cdf[0]` case the JS
division yields `NaN`/`±Infinity` and `ToUint8` stores 0; in `ℚ` division by
zero yields 0, and `cdf` is monotone so the numerator is 0 whenever the
denominator is, giving the same all-zero table). -/
def histToLut (hist : ℕ → ℚ) (numPixels clipLimit : ℚ) (i : ℕ) : ℕ :=
  let ch := clipHist hist numPixels clipLimit
  toUint8 (jsRound ((cdfQ ch i - cdfQ ch 0) / (cdfQ ch 255 - cdfQ ch 0) * 255))

/-- The equalisation table of tile `(tx, ty)`. -/
def tileLutAt (gray : ℕ → ℕ) (w h : ℕ) (clipLimit : ℚ) (tileSize : ℕ)
    (tx ty : ℕ) : ℕ → ℕ :=
  let tX := tileCount w tileSize
  let tY := tileCount h tileSize
  let x0 := tileEdge w tX tx
  let x1 := tileEdge w tX (tx + 1)
  let y0 := tileEdge h tY ty
  let y1 := tileEdge h tY (ty + 1)
  histToLut (tileHist gray w x0 x1 y0 y1) (((x1 - x0) * (y1 - y0) : ℕ) : ℚ) clipLimit

/-- `applyClahe` of `part_003`: output pixel `(x, y)` bilinearly blends, at
the input value `gray[y·w+x]`, the tables of the four tile centres
surrounding the pixel (tile indices clamped at the borders). -/
def applyClahe (gray : ℕ → ℕ) (w h : ℕ) (clipLimit : ℚ) (tileSize : ℕ)
    (x y : ℕ) : ℕ :=
  let tX := tileCount w tileSize
  let tY := tileCount h tileSize
  let tileW : ℚ := (w : ℚ) / (tX : ℚ)
  let tileH : ℚ := (h : ℚ) / (tY : ℚ)
  let px := gray (y * w + x)
  let ftx : ℚ := ((x : ℚ) - tileW / 2) / tileW
  let fty : ℚ := ((y : ℚ) - tileH / 2) / tileH
  let tx0 : ℕ := (max 0 (min ((tX : ℤ) - 1) ⌊ftx⌋)).toNat
  let ty0 : ℕ := (max 0 (min ((tY : ℤ) - 1) ⌊fty⌋)).toNat
  let tx1 : ℕ := min (tX - 1) (tx0 + 1)
  let ty1 : ℕ := min (tY - 1) (ty0 + 1)
  let ax : ℚ := clampQ 0 1 (ftx - (tx0 : ℚ))
  let ay : ℚ := clampQ 0 1 (fty - (ty0 : ℚ))
  let v00 : ℚ := (tileLutAt gray w h clipLimit tileSize tx0 ty0 px : ℚ)
  let v10 : ℚ := (tileLutAt gray w h clipLimit tileSize tx1 ty0 px : ℚ)
  let v01 : ℚ := (tileLutAt gray w h clipLimit tileSize tx0 ty1 px : ℚ)
  let v11 : ℚ := (tileLutAt gray w h clipLimit tileSize tx1 ty1 px : ℚ)
  let top := v00 * (1 - ax) + v10 * ax
  let bot := v01 * (1 - ax) + v11 * ax
  toUint8 (jsRound (top * (1 - ay) + bot * ay))

/-! ## Power-map pipeline, step 4 of `processImage` in `part_003`

```js
// 4) Invert + gamma (gamma=1.0 per original code)
for (let i = 0; i < w * h; i++) {
  let b = invertOutput ? 1.0 - Yprocessed[i] : Yprocessed[i];
  b = Math.max(1e-6, Math.min(1.0, b));
  const adj = Math.pow(b, 1.0);
  base[i] = invertOutput ? 1.0 - adj : adj;
  base[i] = Math.max(0, Math.min(1, base[i]));
}
```

`Math.pow(b, 1.0)` is exactly `b` for every finite double, modelled as
`b ^ (1 : ℕ)`. -/

/-- Per-pixel body of the invert-and-clamp stage. -/
def invertGammaPixel (invertOutput : Bool) (v : ℚ) : ℚ :=
  let b := if invertOutput then 1 - v else v
  let b := clampQ (1/1000000) 1 b
  let adj := b ^ (1 : ℕ)
  let base := if invertOutput then 1 - adj else adj
  clampQ 0 1 base

/-- The invert-and-clamp stage over a whole buffer. -/
def invertGammaStage (invertOutput : Bool) (data : List ℚ) : List ℚ :=
  data.map (invertGammaPixel invertOutput)

/-! ## Separable Gaussian blur of `part_003` (`gaussianKernel`, `separableBlur`)

`gaussianKernel(sigma)` builds a kernel of size `Math.ceil(sigma*3)*2 + 1`
with entries `exp(−x²/(2σ²))` (`x = i − half`), normalised to sum 1; it has
NO small-sigma cutoff.  `separableBlur` convolves horizontally then
vertically, clamping sample coordinates to the buffer (edge replication).
Sigma is a concrete setting, kept in `ℚ`; kernel values live in `ℝ`. -/

/-- Kernel size: `Math.ceil(sigma * 3) * 2 + 1`. -/
def kernelSize (sigma : ℚ) : ℕ := (⌈sigma * 3⌉).toNat * 2 + 1

/-- Kernel half-width: `Math.floor(size / 2)`. -/
def kernelHalf (sigma : ℚ) : ℕ := kernelSize sigma / 2

/-- Unnormalised kernel entry `exp(−(i−half)² / (2σ²))`. -/
noncomputable def gaussianKernelRaw (sigma : ℚ) (i : ℕ) : ℝ :=
  Real.exp (-(((i : ℝ) - (kernelHalf sigma : ℝ)) ^ 2) / (2 * (sigma : ℝ) ^ 2))

/-- Kernel normalisation constant (the `sum` the source divides by). -/
noncomputable def gaussianKernelSum (sigma : ℚ) : ℝ :=
  ∑ i ∈ Finset.range (kernelSize sigma), gaussianKernelRaw sigma i

/-- Normalised kernel entry `i` of `gaussianKernel(sigma)`. -/
noncomputable def gaussianKernel (sigma : ℚ) (i : ℕ) : ℝ :=
  gaussianKernelRaw sigma i / gaussianKernelSum sigma

/-- Edge-replicated sample index `Math.min(limit−1, Math.max(0, p + k − half))`. -/
def clampIdx (limit : ℕ) (p : ℕ) (k : ℕ) (half : ℕ) : ℕ :=
  (min ((limit : ℤ) - 1) (max 0 ((p : ℤ) + (k : ℤ) - (half : ℤ)))).toNat

/-- Horizontal pass of `separableBlur` (the `temp` buffer) at pixel `(x, y)`. -/
noncomputable def separableBlurH (data : ℕ → ℝ) (w : ℕ) (sigma : ℚ) (x y : ℕ) : ℝ :=
  ∑ k ∈ Finset.range (kernelSize sigma),
    data (y * w + clampIdx w x k (kernelHalf sigma)) * gaussianKernel sigma k

/-- `separableBlur` of `part_003` at pixel `(x, y)`: vertical pass over the
horizontal pass. -/
noncomputable def separableBlur (data : ℕ → ℝ) (w h : ℕ) (sigma : ℚ) (x y : ℕ) : ℝ :=
  ∑ k ∈ Finset.range (kernelSize sigma),
    separableBlurH data w sigma x (clampIdx h y k (kernelHalf sigma)) * gaussianKernel sigma k

/-! ## Bilinear resampler, `resizeBilinear` in `part_003` -/

/-- `resizeBilinear` of `part_003` at destination pixel `(dx, dy)`: map back
by the size ratio, sample the four surrounding source pixels (clamped) and
blend by the fractional offsets. -/
def resizeBilinear (data : ℕ → ℚ) (srcW srcH dstW dstH : ℕ) (dx dy : ℕ) : ℚ :=
  let xRatio : ℚ := (srcW : ℚ) / (dstW : ℚ)
  let yRatio : ℚ := (srcH : ℚ) / (dstH : ℚ)
  let sx : ℚ := (dx : ℚ) * xRatio
  let sy : ℚ := (dy : ℚ) * yRatio
  let x0 : ℕ := (⌊sx⌋).toNat
  let y0 : ℕ := (⌊sy⌋).toNat
  let x1 : ℕ := min (x0 + 1) (srcW - 1)
  let y1 : ℕ := min (y0 + 1) (srcH - 1)
  let fx : ℚ := sx - (x0 : ℚ)
  let fy : ℚ := sy - (y0 : ℚ)
  let v00 := data (y0 * srcW + x0)
  let v10 := data (y0 * srcW + x1)
  let v01 := data (y1 * srcW + x0)
  let v11 := data (y1 * srcW + x1)
  v00 * (1 - fx) * (1 - fy) + v10 * fx * (1 - fy) + v01 * (1 - fx) * fy + v11 * fx * fy

/-! ## sRGB linearisation and BT.709 luminance (`srgbToLinear`, `processImage`
step 2 in `part_003`)

These are the linear-light luminance of the power-map pipeline; the claims
compare them against the placement sampler's `brightness`.  The power-law
branch needs a real exponent, so these live in `ℝ`. -/

/-- `srgbToLinear` of `part_003`: `v ≤ 0.04045 ? v/12.92 : ((v+0.055)/1.055)^2.4`. -/
noncomputable def srgbToLinear (v : ℝ) : ℝ :=
  if v ≤ 0.04045 then v / 12.92 else ((v + 0.055) / 1.055) ^ (2.4 : ℝ)

/-- Linear-light BT.709 luminance of an 8-bit pixel, as computed in step 2 of
`processImage`: `0.2126·lin(R/255) + 0.7152·lin(G/255) + 0.0722·lin(B/255)`. -/
noncomputable def luminance709 (r g b : ℕ) : ℝ :=
  0.2126 * srgbToLinear ((r : ℝ) / 255) + 0.7152 * srgbToLinear ((g : ℝ) / 255) +
    0.0722 * srgbToLinear ((b : ℝ) / 255)

/-! ## Bedazzle tool (`src/lazar/assets/bedazzle.js`) -/

/-- `brightness` of `bedazzle.js`: perceived brightness (ITU-R BT.601) of the
raw encoded channel values, `0.299·r + 0.587·g + 0.114·b`. -/
def brightness (r g b : ℕ) : ℚ :=
  0.299 * (r : ℚ) + 0.587 * (g : ℚ) + 0.114 * (b : ℚ)

/-- Kernel radius of `gaussKernel` in `bedazzle.js`: `Math.ceil(sigma * 2.5)`. -/
def gaussKernelRadius (sigma : ℚ) : ℕ := (⌈sigma * 2.5⌉).toNat

/-- Normalised kernel entry `i ∈ [0, 2r]` of `gaussKernel` (`k[i+r]` for the
source's offset `i − r`): `exp(−(i−r)²/(2σ²))` over the kernel sum. -/
noncomputable def gaussKernelEntry (sigma : ℚ) (i : ℕ) : ℝ :=
  Real.exp (-(((i : ℝ) - (gaussKernelRadius sigma : ℝ)) ^ 2) / (2 * (sigma : ℝ) ^ 2)) /
    ∑ j ∈ Finset.range (2 * gaussKernelRadius sigma + 1),
      Real.exp (-(((j : ℝ) - (gaussKernelRadius sigma : ℝ)) ^ 2) / (2 * (sigma : ℝ) ^ 2))

/-- Horizontal pass of `gaussBlur` at `(x, y)`. -/
noncomputable def gaussBlurH (src : ℕ → ℝ) (w : ℕ) (sigma : ℚ) (x y : ℕ) : ℝ :=
  ∑ k ∈ Finset.range (2 * gaussKernelRadius sigma + 1),
    src (y * w + clampIdx w x k (gaussKernelRadius sigma)) * gaussKernelEntry sigma k

/-- Vertical pass of `gaussBlur` over the horizontal pass, at flat index
`i = y·w + x`. -/
noncomputable def gaussBlurV (src : ℕ → ℝ) (w h : ℕ) (sigma : ℚ) (i : ℕ) : ℝ :=
  ∑ k ∈ Finset.range (2 * gaussKernelRadius sigma + 1),
    gaussBlurH src w sigma (i % w) (clampIdx h (i / w) k (gaussKernelRadius sigma)) *
      gaussKernelEntry sigma k

/-- `gaussBlur` of `bedazzle.js`: `if (sigma < 0.5) return src.slice();`
(an unmodified copy), otherwise the separable convolution. -/
noncomputable def gaussBlur (src : ℕ → ℝ) (w h : ℕ) (sigma : ℚ) : ℕ → ℝ :=
  if sigma < 0.5 then src else gaussBlurV src w h sigma

/-- Morphological dilation stage of `buildEdgeMask` in `bedazzle.js`: for
`dilateR ≤ 0` the thresholded mask is returned unchanged; otherwise a pixel
of the result is on iff some on-pixel of the input lies within the disc of
radius `dilateR` around it (the source stamps a filled disc at every
on-pixel, writing only inside the buffer; we read the result at in-range
flat indices `i = y·w + x`). -/
def dilateMask (binary : ℕ → Bool) (w h : ℕ) (dilateR : ℕ) : ℕ → Bool :=
  if dilateR = 0 then binary
  else fun i =>
    decide (∃ y < h, ∃ x < w, binary (y * w + x) = true ∧
      (((i % w : ℕ) : ℤ) - (x : ℤ)) ^ 2 + (((i / w : ℕ) : ℤ) - (y : ℤ)) ^ 2 ≤ (dilateR : ℤ) ^ 2)

/-- Threshold stage of `buildEdgeMask`: normalise the magnitude buffer to
0-255 by its maximum (`1` when the maximum is `0`) and compare against
`255 − sensitivity`. -/
def edgeBinary (edgeMag : List ℚ) (sensitivity : ℚ) : ℕ → Bool :=
  let maxE := edgeMag.foldl max 0
  let maxE := if maxE = 0 then 1 else maxE
  fun i => decide (edgeMag.getD i 0 * (255 / maxE) ≥ 255 - sensitivity)

/-- `buildEdgeMask` of `bedazzle.js`: threshold then dilate. -/
def buildEdgeMask (edgeMag : List ℚ) (w h : ℕ) (sensitivity : ℚ) (dilateR : ℕ) : ℕ → Bool :=
  dilateMask (edgeBinary edgeMag sensitivity) w h dilateR

/-- Placement mode of `computeGemPositions`: `'fill' | 'threshold' | 'edge'`. -/
inductive Mode where
  | fill : Mode
  | threshold : Mode
  | edge : Mode
deriving DecidableEq

/-- One accepted gem: physical mm coordinates plus the rounded mean colour
sampled under the gem footprint. -/
structure PlacedGem where
  x : ℚ
  y : ℚ
  r : ℤ
  g : ℤ
  b : ℤ
  a : ℤ
deriving DecidableEq, Repr

/-- An RGBA pixel, the four entries `src[4i .. 4i+3]` of the sampled
`ImageData`. -/
structure Rgba where
  r : ℕ
  g : ℕ
  b : ℕ
  a : ℕ
deriving DecidableEq, Repr

/-- The sample points of the disc footprint around centre `(cx, cy)`:
offsets `−R, −R+step, …` up to `R` in both axes, restricted to the disc
`dx² + dy² ≤ R²` and to the image bounds, in the source's row-major visit
order. -/
def cellSamples (imgW imgH : ℕ) (cx cy : ℤ) (R step : ℕ) : List (ℤ × ℤ) :=
  ((List.range (2 * R / step + 1)).map fun (j : ℕ) => -(R : ℤ) + (j : ℤ) * (step : ℤ)).flatMap
    fun dy =>
      (((List.range (2 * R / step + 1)).map fun (j : ℕ) =>
          -(R : ℤ) + (j : ℤ) * (step : ℤ)).filterMap
        fun dx =>
          if dx ^ 2 + dy ^ 2 > (R : ℤ) ^ 2 then none
          else
            let px := cx + dx
            let py := cy + dy
            if px < 0 ∨ (imgW : ℤ) ≤ px ∨ py < 0 ∨ (imgH : ℤ) ≤ py then none
            else some (px, py))

/-- Pixel lookup at sample point `(px, py)` (both in range, so the flat
index is the source's `py * imgW + px`). -/
def pixelAt (image : ℕ → Rgba) (imgW : ℕ) (p : ℤ × ℤ) : Rgba :=
  image ((p.2 * (imgW : ℤ) + p.1).toNat)

/-- Threshold-mode statistics of one cell: `(brSum, aSum, cnt)` over the
disc footprint. -/
def thresholdStats (image : ℕ → Rgba) (imgW imgH : ℕ) (cx cy : ℤ) (R step : ℕ) :
    ℚ × ℚ × ℕ :=
  let samples := cellSamples imgW imgH cx cy R step
  (  (samples.map fun p => brightness (pixelAt image imgW p).r (pixelAt image imgW p).g
        (pixelAt image imgW p).b).sum,
     (samples.map fun p => ((pixelAt image imgW p).a : ℚ)).sum,
     samples.length)

/-- Colour-sampling statistics of one cell: `(rSum, gSum, bSum, aSum, cnt)`
over the same disc footprint. -/
def colorStats (image : ℕ → Rgba) (imgW imgH : ℕ) (cx cy : ℤ) (R step : ℕ) :
    ℚ × ℚ × ℚ × ℚ × ℕ :=
  let samples := cellSamples imgW imgH cx cy R step
  (  (samples.map fun p => ((pixelAt image imgW p).r : ℚ)).sum,
     (samples.map fun p => ((pixelAt image imgW p).g : ℚ)).sum,
     (samples.map fun p => ((pixelAt image imgW p).b : ℚ)).sum,
     (samples.map fun p => ((pixelAt image imgW p).a : ℚ)).sum,
     samples.length)

/-- One candidate cell of `computeGemPositions`: placement decision followed
by colour sampling; `none` models every `continue`. -/
def gemCell (image : ℕ → Rgba) (imgW imgH : ℕ) (widthMM heightMM : ℚ)
    (radius spacing : ℚ) (mode : Mode) (threshold : ℚ) (edgeMask : Option (ℕ → Bool))
    (gemPxR step : ℕ) (row col : ℕ) : Option PlacedGem :=
  let yMM := radius + (row : ℚ) * spacing
  let xMM := radius + (col : ℚ) * spacing
  if xMM + radius > widthMM ∨ yMM + radius > heightMM then none
  else
    let cx := jsRound (xMM * ((imgW : ℚ) / widthMM))
    let cy := jsRound (yMM * ((imgH : ℚ) / heightMM))
    let place : Option Bool :=
      match mode with
      | Mode.edge =>
          match edgeMask with
          | some m =>
              let mx := min cx ((imgW : ℤ) - 1)
              let my := min cy ((imgH : ℤ) - 1)
              some (m ((my * (imgW : ℤ) + mx).toNat))
          | none => some false
      | Mode.fill => some true
      | Mode.threshold =>
          let s := thresholdStats image imgW imgH cx cy gemPxR step
          if s.2.2 = 0 then none
          else if s.2.1 / (s.2.2 : ℚ) < 10 then none
          else some (s.1 / (s.2.2 : ℚ) < threshold)
    match place with
    | none => none
    | some false => none
    | some true =>
        let c := colorStats image imgW imgH cx cy gemPxR step
        if c.2.2.2.2 = 0 then none
        else if c.2.2.2.1 / (c.2.2.2.2 : ℚ) < 10 then none
        else
          some { x := xMM, y := yMM,
                 r := jsRound (c.1 / (c.2.2.2.2 : ℚ)),
                 g := jsRound (c.2.1 / (c.2.2.2.2 : ℚ)),
                 b := jsRound (c.2.2.1 / (c.2.2.2.2 : ℚ)),
                 a := jsRound (c.2.2.2.1 / (c.2.2.2.2 : ℚ)) }

/-- `computeGemPositions` of `bedazzle.js`, square-grid branch (`gridType ==
'square'`: `rowSpacing = spacing`, no hex offset, full column count on every
row; the hexagonal branch multiplies the row pitch by the irrational √3⁄2 and
is not needed by any claim).  Cells are visited row-major, top to bottom,
left to right. -/
def computeGemPositionsSq (image : ℕ → Rgba) (imgW imgH : ℕ)
    (widthMM heightMM gemDiameter gap : ℚ) (mode : Mode) (threshold : ℚ)
    (edgeMask : Option (ℕ → Bool)) : List PlacedGem :=
  let radius := gemDiameter / 2
  let spacing := gemDiameter * (1 + gap)
  let cols := (max 1 ⌊widthMM / spacing⌋).toNat
  let rows := (max 1 ⌊heightMM / spacing⌋).toNat
  let scaleX := (imgW : ℚ) / widthMM
  let scaleY := (imgH : ℚ) / heightMM
  let gemPxR := (max 1 (jsRound (radius * min scaleX scaleY))).toNat
  let step := max 1 (gemPxR / 4)
  (List.range rows).flatMap fun row =>
    (List.range cols).filterMap fun col =>
      gemCell image imgW imgH widthMM heightMM radius spacing mode threshold
        edgeMask gemPxR step row col

/-- Uniform tile histogram: every one of the `t·t` pixels of a tile falls in
bin `g`.  `histToLut` applied to it at input `g` is the value a uniform-`g`
tile-aligned image is mapped to by CLAHE. -/
def claheConstVal (g tileSize : ℕ) (clipLimit : ℚ) : ℕ :=
  histToLut (fun b => if g = b then ((tileSize * tileSize : ℕ) : ℚ) else 0)
    ((tileSize * tileSize : ℕ) : ℚ) clipLimit g

/-! ## Theorems -/

section ClaimProofs

attribute [local semireducible] Rat.add Rat.mul Rat.inv Rat.sub Rat.ofScientific

set_option maxRecDepth 40000

theorem jsRound_intCast (n : ℤ) : jsRound (n : ℚ) = n := by
  unfold jsRound
  rw [show ((n : ℚ) + 1/2) = (1/2 : ℚ) + (n : ℚ) by ring, Int.floor_add_int]
  norm_num

theorem toUint8_of_mem (z : ℤ) (h0 : 0 ≤ z) (h1 : z < 256) : toUint8 z = z.toNat := by
  unfold toUint8
  omega

theorem toUint8_lt (z : ℤ) : toUint8 z < 256 := by
  unfold toUint8
  omega

theorem sortedLevels_idem (l : List ℕ) :
    sortedLevels (sortedLevels l) = sortedLevels l := by
  unfold sortedLevels
  have hnd : (List.insertionSort (· ≤ ·) l.dedup).Nodup :=
    ((l.dedup.perm_insertionSort (· ≤ ·)).nodup_iff).mpr l.nodup_dedup
  rw [hnd.dedup]
  exact List.Sorted.insertionSort_eq (List.sorted_insertionSort _ _)

/-- Claim C1 (counterexample): the spec says the invert stage maps every
pixel `v` to `1 − clamp(v, ε, 1)` when inversion is requested and is the
identity otherwise.  The code inverts, clamps, applies `pow(·, 1.0)` and then
inverts BACK, so with inversion requested `v = 0.3` comes out as `0.3` — not
the claimed `1 − clamp(0.3, ε, 1) = 0.7`; the "Invert Output" toggle is
effectively dead.  Without inversion the stage clamps to `[1e−6, 1]`, so `0`
comes out as `1e−6`, not `0`. -/
theorem invertGammaStage_cancels_inversion :
    invertGammaStage true [3/10] = [3/10] ∧
    1 - clampQ (1/1000000) 1 (3/10) = 7/10 ∧
    invertGammaStage false [0] = [1/1000000] := by
  refine ⟨by decide, by decide, by decide⟩

/-- Claim C1 (amended): with inversion requested the stage maps every pixel
`v` to `1 − clamp(1 − v, ε, 1)` (the inversion performed for the gamma step
is inverted back, so for `v ∈ [0, 1]` this is `min(v, 1 − ε)`, effectively a
pass-through); without inversion it maps `v` to `clamp(v, ε, 1)` (the
identity except on values below `ε` or above 1). -/
theorem invertGammaStage_formula (invertOutput : Bool) (data : List ℚ) :
    invertGammaStage invertOutput data = data.map fun v =>
      if invertOutput then 1 - clampQ (1/1000000) 1 (1 - v)
      else clampQ (1/1000000) 1 v := by
  unfold invertGammaStage
  refine List.map_congr_left fun v _ => ?_
  have key : ∀ u : ℚ, clampQ 0 1 (1 - clampQ (1/1000000) 1 u) = 1 - clampQ (1/1000000) 1 u := by
    intro u
    have h1 : (1/1000000 : ℚ) ≤ max (1/1000000) (min 1 u) := le_max_left _ _
    have h2 : max (1/1000000 : ℚ) (min 1 u) ≤ 1 := max_le (by norm_num) (min_le_left _ _)
    unfold clampQ
    rw [min_eq_right (by linarith), max_eq_right (by linarith)]
  have key2 : ∀ u : ℚ, clampQ 0 1 (clampQ (1/1000000) 1 u) = clampQ (1/1000000) 1 u := by
    intro u
    have h1 : (1/1000000 : ℚ) ≤ max (1/1000000) (min 1 u) := le_max_left _ _
    have h2 : max (1/1000000 : ℚ) (min 1 u) ≤ 1 := max_le (by norm_num) (min_le_left _ _)
    unfold clampQ
    rw [min_eq_right (by linarith), max_eq_right (by linarith)]
  cases invertOutput with
  | true => simpa [invertGammaPixel] using key (1 - v)
  | false => simpa [invertGammaPixel] using key2 v

theorem jsRound_mono {p q : ℚ} (h : p ≤ q) : jsRound p ≤ jsRound q :=
  Int.floor_le_floor (by linarith)

theorem toUint8_mono_mem {a b : ℤ} (h0 : 0 ≤ a) (hab : a ≤ b) (h255 : b ≤ 255) :
    toUint8 a ≤ toUint8 b := by
  unfold toUint8
  omega

theorem findSome?_range_eq {α : Type} (f : ℕ → Option α) (m i : ℕ) (hi : i < m) (v : α)
    (hfi : f i = some v) (hmin : ∀ j < i, f j = none) :
    (List.range m).findSome? f = some v := by
  have hm : m = (i + 1) + (m - (i + 1)) := by omega
  rw [hm, List.range_add, List.findSome?_append]
  have h1 : (List.range (i + 1)).findSome? f = some v := by
    rw [List.range_succ, List.findSome?_append]
    have h0 : (List.range i).findSome? f = none :=
      List.findSome?_eq_none_iff.mpr fun x hx => hmin x (List.mem_range.mp hx)
    simp [h0, hfi]
  simp [h1]

theorem lvlQ_strictMono {n : ℕ} (hn : 2 ≤ n) {i j : ℕ} (hij : i < j) : lvlQ n i < lvlQ n j := by
  unfold lvlQ
  have hpos : (0 : ℚ) < (n : ℚ) - 1 := by
    have h2 : (2 : ℚ) ≤ (n : ℚ) := by exact_mod_cast hn
    linarith
  have hij2 : (i : ℚ) < (j : ℚ) := by exact_mod_cast hij
  gcongr

theorem lvlQ_zero (n : ℕ) : lvlQ n 0 = 0 := by simp [lvlQ]

theorem lvlQ_last {n : ℕ} (hn : 2 ≤ n) : lvlQ n (n - 1) = 255 := by
  unfold lvlQ
  have h1 : ((n - 1 : ℕ) : ℚ) = (n : ℚ) - 1 := by
    have : 1 ≤ n := by omega
    push_cast [this]
    ring
  have hne : (n : ℚ) - 1 ≠ 0 := by
    have h2 : (2 : ℚ) ≤ (n : ℚ) := by exact_mod_cast hn
    linarith
  rw [h1, div_self hne, one_mul]

theorem inputLevels_length (n : ℕ) : (inputLevels n).length = n := by
  simp [inputLevels]

theorem inputLevels_getD {n : ℕ} (hn : 2 ≤ n) {i : ℕ} (hi : i < n) :
    (inputLevels n).getD i none = some (lvlQ n i) := by
  have h1 : (inputLevels n)[i]? =
      some (if n = 1 then none else some ((i : ℚ) / ((n : ℚ) - 1) * 255)) := by
    unfold inputLevels
    rw [List.getElem?_map, List.getElem?_range hi]
    rfl
  rw [List.getD_eq_getElem?_getD, h1]
  simp [show n ≠ 1 by omega, lvlQ]

theorem sorted_getD_mono {s : List ℕ} (hs : s.Sorted (· ≤ ·)) {i j : ℕ}
    (hij : i ≤ j) (hj : j < s.length) : s.getD i 0 ≤ s.getD j 0 := by
  have hi : i < s.length := lt_of_le_of_lt hij hj
  rw [List.getD_eq_getElem s 0 hi, List.getD_eq_getElem s 0 hj]
  rcases eq_or_lt_of_le hij with h | h
  · subst h; exact le_refl _
  · exact hs.rel_get_of_lt (by simpa using h)

theorem getD_le_of_mem {s : List ℕ} {M : ℕ} (h255 : ∀ v ∈ s, v ≤ M) {i : ℕ}
    (hi : i < s.length) : s.getD i 0 ≤ M := by
  rw [List.getD_eq_getElem s 0 hi]
  exact h255 _ (s.getElem_mem hi)

theorem segValue_eq (s : List ℕ) (hn : 2 ≤ s.length) (x : ℕ) {i₀ : ℕ}
    (hi₀ : i₀ + 1 ≤ s.length - 1) (ha : lvlQ s.length i₀ ≤ (x : ℚ))
    (hb : (x : ℚ) ≤ lvlQ s.length (i₀ + 1))
    (hmin : ∀ j < i₀, ¬((x : ℚ) ≤ lvlQ s.length (j + 1))) :
    segValue s (inputLevels s.length) x = some (jsRound (interpQ s s.length i₀ x)) := by
  unfold segValue
  rw [inputLevels_length]
  refine findSome?_range_eq _ _ i₀ (by omega) _ ?_ ?_
  · rw [inputLevels_getD hn (by omega), inputLevels_getD hn (by omega)]
    dsimp only
    rw [if_pos ⟨ha, hb⟩]
    rfl
  · intro j hj
    rw [inputLevels_getD hn (by omega), inputLevels_getD hn (by omega)]
    dsimp only
    rw [if_neg]
    rintro ⟨-, h2⟩
    exact hmin j hj h2

theorem lutFromSorted_at_zero (s : List ℕ) (hn : 2 ≤ s.length) :
    lutFromSorted s 0 = toUint8 (s.getD 0 0) := by
  simp only [lutFromSorted]
  rw [inputLevels_getD hn (by omega)]
  rw [if_pos]
  simp [nanLe, lvlQ_zero]

theorem lutFromSorted_at_top (s : List ℕ) (hn : 2 ≤ s.length) (x : ℕ) (hx : 255 ≤ x) :
    lutFromSorted s x = toUint8 (s.getD (s.length - 1) 0) := by
  simp only [lutFromSorted]
  rw [inputLevels_length, inputLevels_getD hn (by omega), inputLevels_getD hn (by omega)]
  rw [if_neg, if_pos]
  · simp only [nanLe, lvlQ_last hn, decide_eq_true_eq]
    exact_mod_cast hx
  · simp only [nanLe, lvlQ_zero, decide_eq_true_eq]
    intro hcon
    have : (1 : ℚ) ≤ (x : ℚ) := by exact_mod_cast Nat.one_le_iff_ne_zero.mpr (by omega)
    linarith

theorem lutFromSorted_mid (s : List ℕ) (hn : 2 ≤ s.length) (x : ℕ)
    (hx1 : 1 ≤ x) (hx2 : x ≤ 254) {i₀ : ℕ}
    (hi₀ : i₀ + 1 ≤ s.length - 1) (ha : lvlQ s.length i₀ ≤ (x : ℚ))
    (hb : (x : ℚ) ≤ lvlQ s.length (i₀ + 1))
    (hmin : ∀ j < i₀, ¬((x : ℚ) ≤ lvlQ s.length (j + 1))) :
    lutFromSorted s x = toUint8 (jsRound (interpQ s s.length i₀ x)) := by
  simp only [lutFromSorted]
  rw [inputLevels_length, inputLevels_getD hn (by omega), inputLevels_getD hn (by omega)]
  rw [if_neg, if_neg]
  · rw [segValue_eq s hn x hi₀ ha hb hmin]
  · simp only [nanLe, lvlQ_last hn, decide_eq_true_eq]
    intro hcon
    have : (x : ℚ) ≤ 254 := by exact_mod_cast hx2
    linarith
  · simp only [nanLe, lvlQ_zero, decide_eq_true_eq]
    intro hcon
    have : (1 : ℚ) ≤ (x : ℚ) := by exact_mod_cast hx1
    linarith

theorem interpQ_bounds (s : List ℕ) (hs : s.Sorted (· ≤ ·)) (hn : 2 ≤ s.length)
    {i₀ : ℕ} (hi₀ : i₀ + 1 ≤ s.length - 1) {x : ℚ}
    (ha : lvlQ s.length i₀ ≤ x) (hb : x ≤ lvlQ s.length (i₀ + 1)) :
    (s.getD i₀ 0 : ℚ) ≤ interpQ s s.length i₀ x ∧
      interpQ s s.length i₀ x ≤ (s.getD (i₀ + 1) 0 : ℚ) := by
  have hab : lvlQ s.length i₀ < lvlQ s.length (i₀ + 1) := lvlQ_strictMono hn (lt_add_one _)
  have hdelta : (s.getD i₀ 0 : ℚ) ≤ (s.getD (i₀ + 1) 0 : ℚ) := by
    exact_mod_cast sorted_getD_mono hs (Nat.le_succ _) (by omega)
  unfold interpQ
  have ht0 : 0 ≤ (x - lvlQ s.length i₀) / (lvlQ s.length (i₀ + 1) - lvlQ s.length i₀) :=
    div_nonneg (by linarith) (by linarith)
  have ht1 : (x - lvlQ s.length i₀) / (lvlQ s.length (i₀ + 1) - lvlQ s.length i₀) ≤ 1 :=
    (div_le_one (by linarith)).mpr (by linarith)
  constructor
  · nlinarith
  · nlinarith

theorem interpQ_mono (s : List ℕ) (hs : s.Sorted (· ≤ ·)) (hn : 2 ≤ s.length)
    {i₀ : ℕ} (hi₀ : i₀ + 1 ≤ s.length - 1) {x y : ℚ} (hxy : x ≤ y) :
    interpQ s s.length i₀ x ≤ interpQ s s.length i₀ y := by
  have hab : lvlQ s.length i₀ < lvlQ s.length (i₀ + 1) := lvlQ_strictMono hn (lt_add_one _)
  have hdelta : (s.getD i₀ 0 : ℚ) ≤ (s.getD (i₀ + 1) 0 : ℚ) := by
    exact_mod_cast sorted_getD_mono hs (Nat.le_succ _) (by omega)
  unfold interpQ
  have hmono : (x - lvlQ s.length i₀) / (lvlQ s.length (i₀ + 1) - lvlQ s.length i₀) ≤
      (y - lvlQ s.length i₀) / (lvlQ s.length (i₀ + 1) - lvlQ s.length i₀) := by
    gcongr
    linarith
  nlinarith [mul_le_mul_of_nonneg_right hmono (sub_nonneg.mpr hdelta)]

theorem natCast_le_lvlQ_iff {n : ℕ} (hn : 2 ≤ n) (x i : ℕ) :
    (x : ℚ) ≤ lvlQ n i ↔ x * (n - 1) ≤ i * 255 := by
  unfold lvlQ
  have hpos : (0 : ℚ) < (n : ℚ) - 1 := by
    have h2 : (2 : ℚ) ≤ (n : ℚ) := by exact_mod_cast hn
    linarith
  rw [div_mul_eq_mul_div, le_div_iff₀ hpos,
    show ((n : ℚ) - 1) = ((n - 1 : ℕ) : ℚ) by
      have h1 : 1 ≤ n := by omega
      push_cast [h1]
      ring]
  constructor <;> intro h <;> exact_mod_cast h

theorem lvlQ_le_natCast_iff {n : ℕ} (hn : 2 ≤ n) (x i : ℕ) :
    lvlQ n i ≤ (x : ℚ) ↔ i * 255 ≤ x * (n - 1) := by
  unfold lvlQ
  have hpos : (0 : ℚ) < (n : ℚ) - 1 := by
    have h2 : (2 : ℚ) ≤ (n : ℚ) := by exact_mod_cast hn
    linarith
  rw [div_mul_eq_mul_div, div_le_iff₀ hpos,
    show ((n : ℚ) - 1) = ((n - 1 : ℕ) : ℚ) by
      have h1 : 1 ≤ n := by omega
      push_cast [h1]
      ring]
  constructor <;> intro h <;> exact_mod_cast h

theorem segIdx_spec {n : ℕ} (hn : 2 ≤ n) (x : ℕ) (hx1 : 1 ≤ x) (hx2 : x ≤ 254) :
    segIdx n x + 1 ≤ n - 1 ∧
    lvlQ n (segIdx n x) ≤ (x : ℚ) ∧
    (x : ℚ) ≤ lvlQ n (segIdx n x + 1) ∧
    ∀ j < segIdx n x, ¬((x : ℚ) ≤ lvlQ n (j + 1)) := by
  have ha1 : 1 ≤ x * (n - 1) := Nat.one_le_iff_ne_zero.mpr
    (Nat.mul_ne_zero (by omega) (by omega))
  have ha2 : x * (n - 1) ≤ 254 * (n - 1) := Nat.mul_le_mul_right _ hx2
  refine ⟨?_, (lvlQ_le_natCast_iff hn x _).mpr ?_, (natCast_le_lvlQ_iff hn x _).mpr ?_,
    fun j hj hc => ?_⟩
  · unfold segIdx
    omega
  · unfold segIdx
    omega
  · unfold segIdx
    omega
  · rw [natCast_le_lvlQ_iff hn x _] at hc
    unfold segIdx at hj
    omega

theorem segIdx_mono {n : ℕ} (x y : ℕ) (hxy : x ≤ y) : segIdx n x ≤ segIdx n y := by
  unfold segIdx
  have : x * (n - 1) ≤ y * (n - 1) := Nat.mul_le_mul_right _ hxy
  omega

theorem lutFromSorted_step (s : List ℕ) (hs : s.Sorted (· ≤ ·))
    (h255 : ∀ v ∈ s, v ≤ 255) (x : ℕ) (hx : x < 255) :
    lutFromSorted s x ≤ lutFromSorted s (x + 1) := by
  have jsR0 : jsRound (0 : ℚ) = 0 := by
    rw [show (0 : ℚ) = ((0 : ℤ) : ℚ) by norm_num, jsRound_intCast]
  have jsR255 : jsRound (255 : ℚ) = 255 := by
    rw [show (255 : ℚ) = ((255 : ℤ) : ℚ) by norm_num, jsRound_intCast]
  rcases le_or_lt s.length 1 with hn | hn1
  · have hz : ∀ y : ℕ, lutFromSorted s y = 0 := by
      intro y
      rcases Nat.le_one_iff_eq_zero_or_eq_one.mp hn with h0 | h1
      · simp [lutFromSorted, h0, inputLevels, segValue, nanLe]
      · simp [lutFromSorted, h1, inputLevels, segValue, nanLe]
    rw [hz, hz]
  · have hn2 : 2 ≤ s.length := hn1
    have hgetD255 : ∀ i, i < s.length → (s.getD i 0) ≤ 255 :=
      fun i hi => getD_le_of_mem h255 hi
    rcases Nat.eq_zero_or_pos x with hx0 | hx1
    · subst hx0
      obtain ⟨hseg, hlow, hhigh, hmin⟩ := segIdx_spec hn2 1 (le_refl 1) (by norm_num)
      rw [show (0 + 1 : ℕ) = 1 from rfl, lutFromSorted_at_zero s hn2,
        lutFromSorted_mid s hn2 1 (le_refl 1) (by norm_num) hseg hlow hhigh hmin]
      obtain ⟨hlb, hub⟩ := interpQ_bounds s hs hn2 hseg hlow hhigh
      refine toUint8_mono_mem (by positivity) ?_ ?_
      · have h1 : ((s.getD 0 0 : ℤ) : ℚ) ≤ interpQ s s.length (segIdx s.length 1) 1 := by
          refine le_trans ?_ hlb
          exact_mod_cast sorted_getD_mono hs (Nat.zero_le _) (by omega)
        calc (s.getD 0 0 : ℤ) = jsRound ((s.getD 0 0 : ℤ) : ℚ) := (jsRound_intCast _).symm
          _ ≤ jsRound (interpQ s s.length (segIdx s.length 1) 1) := jsRound_mono h1
      · have h2 : interpQ s s.length (segIdx s.length 1) 1 ≤ 255 := by
          refine le_trans hub ?_
          exact_mod_cast hgetD255 _ (by omega)
        calc jsRound (interpQ s s.length (segIdx s.length 1) 1) ≤ jsRound (255 : ℚ) :=
              jsRound_mono h2
          _ = 255 := jsR255
    · rcases Nat.lt_or_ge x 254 with hx253 | hx254
      · obtain ⟨hsegx, hlowx, hhighx, hminx⟩ := segIdx_spec hn2 x hx1 (by omega)
        obtain ⟨hsegy, hlowy, hhighy, hminy⟩ := segIdx_spec hn2 (x + 1) (by omega) (by omega)
        rw [lutFromSorted_mid s hn2 x hx1 (by omega) hsegx hlowx hhighx hminx,
          lutFromSorted_mid s hn2 (x + 1) (by omega) (by omega) hsegy hlowy hhighy hminy]
        obtain ⟨hlbx, hubx⟩ := interpQ_bounds s hs hn2 hsegx hlowx hhighx
        obtain ⟨hlby, huby⟩ := interpQ_bounds s hs hn2 hsegy hlowy hhighy
        have hkey : interpQ s s.length (segIdx s.length x) x ≤
            interpQ s s.length (segIdx s.length (x + 1)) ((x + 1 : ℕ) : ℚ) := by
          rcases eq_or_lt_of_le (segIdx_mono x (x + 1) (Nat.le_succ x) :
              segIdx s.length x ≤ segIdx s.length (x + 1)) with heq | hlt
          · rw [heq]
            refine interpQ_mono s hs hn2 hsegy ?_
            push_cast
            linarith
          · calc interpQ s s.length (segIdx s.length x) x
                ≤ (s.getD (segIdx s.length x + 1) 0 : ℚ) := hubx
              _ ≤ (s.getD (segIdx s.length (x + 1)) 0 : ℚ) := by
                  exact_mod_cast sorted_getD_mono hs (by omega) (by omega)
              _ ≤ interpQ s s.length (segIdx s.length (x + 1)) ((x + 1 : ℕ) : ℚ) := hlby
        refine toUint8_mono_mem ?_ (jsRound_mono hkey) ?_
        · have h0 : (0 : ℚ) ≤ interpQ s s.length (segIdx s.length x) x :=
            le_trans (by positivity) hlbx
          calc (0 : ℤ) = jsRound (0 : ℚ) := jsR0.symm
            _ ≤ jsRound (interpQ s s.length (segIdx s.length x) x) := jsRound_mono h0
        · have h2 : interpQ s s.length (segIdx s.length (x + 1)) ((x + 1 : ℕ) : ℚ) ≤ 255 := by
            refine le_trans huby ?_
            exact_mod_cast hgetD255 _ (by omega)
          calc jsRound (interpQ s s.length (segIdx s.length (x + 1)) ((x + 1 : ℕ) : ℚ))
              ≤ jsRound (255 : ℚ) := jsRound_mono h2
            _ = 255 := jsR255
      · have hx254e : x = 254 := by omega
        subst hx254e
        obtain ⟨hsegx, hlowx, hhighx, hminx⟩ := segIdx_spec hn2 254 (by norm_num) (le_refl 254)
        rw [lutFromSorted_mid s hn2 254 (by norm_num) (le_refl 254) hsegx hlowx hhighx hminx,
          lutFromSorted_at_top s hn2 (254 + 1) (le_refl 255)]
        obtain ⟨hlbx, hubx⟩ := interpQ_bounds s hs hn2 hsegx hlowx hhighx
        refine toUint8_mono_mem ?_ ?_ ?_
        · have h0 : (0 : ℚ) ≤ interpQ s s.length (segIdx s.length 254) 254 :=
            le_trans (by positivity) hlbx
          calc (0 : ℤ) = jsRound (0 : ℚ) := jsR0.symm
            _ ≤ jsRound (interpQ s s.length (segIdx s.length 254) 254) := jsRound_mono h0
        · have h1 : interpQ s s.length (segIdx s.length 254) 254 ≤
              ((s.getD (s.length - 1) 0 : ℤ) : ℚ) := by
            refine le_trans hubx ?_
            exact_mod_cast sorted_getD_mono hs (by omega) (by omega)
          calc jsRound (interpQ s s.length (segIdx s.length 254) 254)
              ≤ jsRound ((s.getD (s.length - 1) 0 : ℤ) : ℚ) := jsRound_mono h1
            _ = (s.getD (s.length - 1) 0 : ℤ) := jsRound_intCast _
        · exact_mod_cast hgetD255 _ (by omega)

theorem buildMappingLut_monotone (l : List ℕ) (hl : ∀ v ∈ l, v ≤ 255)
    (x : ℕ) (hx : x < 255) : buildMappingLut l x ≤ buildMappingLut l (x + 1) := by
  unfold buildMappingLut
  refine lutFromSorted_step (sortedLevels l) (List.sorted_insertionSort _ _) ?_ x hx
  intro v hv
  exact hl v (List.mem_dedup.mp (((l.dedup).perm_insertionSort (· ≤ ·)).mem_iff.mp hv))

/-- Claim C2 (counterexample): the LUT built from the non-monotonically
ordered calibration list `[255, 104, 187]` is monotonically non-decreasing
over all 256 entries — the table does not reproduce the non-monotonic
ordering. -/
theorem lut_of_nonmonotonic_levels_is_monotone :
    ((List.range 255).all fun x =>
      decide (buildMappingLut [255, 104, 187] x ≤ buildMappingLut [255, 104, 187] (x + 1)))
      = true := by
  decide

/-- Claim C2 (amended): `buildMappingLut` deduplicates and sorts its level
list ascending before interpolating, so the table only depends on the sorted
set of levels: a non-monotonic ordering yields the same table as its sorted
counterpart, and for every level list within 0-255 the built table is
monotonically non-decreasing — non-monotonic output is impossible. -/
theorem buildMappingLut_sorts_input :
    (∀ l, buildMappingLut l = buildMappingLut (sortedLevels l)) ∧
    buildMappingLut [255, 104, 187] = buildMappingLut [104, 187, 255] ∧
    (∀ l : List ℕ, (∀ v ∈ l, v ≤ 255) → ∀ x < 255,
      buildMappingLut l x ≤ buildMappingLut l (x + 1)) := by
  refine ⟨?_, ?_, ?_⟩
  · intro l
    show lutFromSorted (sortedLevels l) = lutFromSorted (sortedLevels (sortedLevels l))
    rw [sortedLevels_idem]
  · show lutFromSorted (sortedLevels [255, 104, 187]) =
      lutFromSorted (sortedLevels [104, 187, 255])
    rw [show sortedLevels [255, 104, 187] = sortedLevels [104, 187, 255] from by decide]
  · exact fun l hl x hx => buildMappingLut_monotone l hl x hx

/-- Claim C2 witness: the order-invariance and monotonicity instantiated on
the non-monotonically ordered list `[255, 104, 187]`. -/
theorem buildMappingLut_sorts_input_witness :
    buildMappingLut [7] = buildMappingLut (sortedLevels [7]) ∧
    buildMappingLut [255, 104, 187] 10 ≤ buildMappingLut [255, 104, 187] 11 :=
  ⟨buildMappingLut_sorts_input.1 [7],
    buildMappingLut_sorts_input.2.2 [255, 104, 187] (by decide) 10 (by decide)⟩

/-- Claim C6: fill mode on a fully opaque uniform image with a 10×10 mm
canvas, 4 mm diameter, gap 0 and a square grid places exactly the 2×2 grid
`(2,2), (6,2), (2,6), (6,6)` in row-major order. -/
theorem fillMode_places_2x2_grid :
    (computeGemPositionsSq (fun _ => ⟨128, 128, 128, 255⟩) 10 10 10 10 4 0 Mode.fill 0
        none).map (fun p => (p.x, p.y)) = [(2, 2), (6, 2), (2, 6), (6, 6)] := by
  decide

/-- Claim C8: bilinear resampling of a buffer to its own dimensions
reproduces every pixel exactly. -/
theorem resizeBilinear_self_identity (data : ℕ → ℚ) (w h dx dy : ℕ)
    (hx : dx < w) (hy : dy < h) :
    resizeBilinear data w h w h dx dy = data (dy * w + dx) := by
  have hw : (w : ℚ) ≠ 0 := Nat.cast_ne_zero.mpr (Nat.lt_of_le_of_lt (Nat.zero_le _) hx).ne'
  have hh : (h : ℚ) ≠ 0 := Nat.cast_ne_zero.mpr (Nat.lt_of_le_of_lt (Nat.zero_le _) hy).ne'
  unfold resizeBilinear
  simp only [div_self hw, div_self hh, mul_one, Int.floor_natCast, Int.toNat_natCast,
    sub_self, sub_zero, mul_zero, zero_mul, add_zero]

/-- Claim C8 witness: resampling the buffer `i ↦ i` at its own 2×2 size
reproduces pixel `(1, 1)`. -/
theorem resizeBilinear_self_identity_witness :
    resizeBilinear (fun i => (i : ℚ)) 2 2 2 2 1 1 = 3 := by
  have h := resizeBilinear_self_identity (fun i => (i : ℚ)) 2 2 1 1
    (by decide) (by decide)
  simpa using h

/-- Claim C9: `readSettings` adopts the gray-value list `[7, 7]` (its
length-two count is taken before deduplication and nothing raises a
configuration error), and the pipeline then runs `buildMappingLut` on it,
which degenerates to the all-zero table — e.g. inputs 128 and 255 are both
mapped to 0 instead of being interpolated between calibration levels. -/
theorem duplicate_gray_levels_accepted :
    acceptsGrayValues [7, 7] = true ∧
    buildMappingLut [7, 7] 128 = 0 ∧ buildMappingLut [7, 7] 255 = 0 := by
  refine ⟨by decide, by decide, by decide⟩

/-- Claim C10: on a gray-value list whose deduplication leaves a single
value (such as `[7, 7]`), the single input breakpoint is `0/0` (`NaN`), every
comparison against it is false, and the builder leaves all 256 entries at 0
— in particular input 0 is not mapped to the calibration value 7. -/
theorem buildMappingLut_single_distinct_all_zero :
    (List.range 256).map (buildMappingLut [7, 7]) = List.replicate 256 0 ∧
    buildMappingLut [7, 7] 0 ≠ 7 := by
  refine ⟨by decide, by decide⟩

/-- Claim C7: dilation with radius 0 returns the binary mask unchanged, and
dilation is monotone in the radius: every in-range pixel that is on after
dilating with `r1` is on after dilating with any `r2 ≥ r1` (in particular,
with `r1 = 0`, dilation never turns an on-pixel of the input off). -/
theorem dilateMask_zero_identity_and_monotone (binary : ℕ → Bool) (w h : ℕ) :
    dilateMask binary w h 0 = binary ∧
    ∀ r1 r2 : ℕ, r1 ≤ r2 → ∀ i, i < w * h →
      dilateMask binary w h r1 i = true → dilateMask binary w h r2 i = true := by
  constructor
  · simp [dilateMask]
  · intro r1 r2 h12 i hi hon
    have hw : 0 < w := by
      rcases Nat.eq_zero_or_pos w with h0 | h0
      · subst h0; simp at hi
      · exact h0
    rcases Nat.eq_zero_or_pos r2 with hr2 | hr2
    · subst hr2
      have hr1 : r1 = 0 := Nat.le_zero.mp h12
      subst hr1
      exact hon
    · simp only [dilateMask, if_neg hr2.ne', decide_eq_true_eq]
      rcases Nat.eq_zero_or_pos r1 with hr1 | hr1
      · subst hr1
        simp only [dilateMask, if_pos rfl] at hon
        refine ⟨i / w, ?_, i % w, Nat.mod_lt _ hw, ?_, ?_⟩
        · exact (Nat.div_lt_iff_lt_mul hw).mpr (by rwa [mul_comm] at hi)
        · rwa [Nat.div_add_mod']
        · simp only [sub_self]
          positivity
      · simp only [dilateMask, if_neg hr1.ne', decide_eq_true_eq] at hon
        obtain ⟨y, hy, x, hx, hb, hd⟩ := hon
        refine ⟨y, hy, x, hx, hb, le_trans hd ?_⟩
        have hc : (r1 : ℤ) ≤ (r2 : ℤ) := by exact_mod_cast h12
        exact pow_le_pow_left₀ (by positivity) hc 2

/-- Claim C7 witness: for the 2×2 mask that is on only at pixel 0, radius-0
dilation is the identity, and the on-pixel 0 survives dilation with radius 1. -/
theorem dilateMask_zero_identity_and_monotone_witness :
    dilateMask (fun i => decide (i = 0)) 2 2 0 = (fun i => decide (i = 0)) ∧
    dilateMask (fun i => decide (i = 0)) 2 2 1 0 = true := by
  obtain ⟨h1, h2⟩ := dilateMask_zero_identity_and_monotone (fun i => decide (i = 0)) 2 2
  exact ⟨h1, h2 0 1 (by decide) 0 (by decide) (by decide)⟩

/-- Claim C5 (counterexample): `separableBlur` of `part_003` has NO
small-sigma cutoff: at `sigma = 0.4 < 0.5` on the 2×1 buffer `[0, 1]` it
convolves anyway and changes pixel 0 (the positive kernel mass at offsets
+1/+2 leaks the neighbouring 1 into it), so it is not an unmodified copy. -/
theorem separableBlur_no_small_sigma_cutoff :
    (2/5 : ℚ) < 1/2 ∧
    separableBlur (fun i => if i = 0 then (0 : ℝ) else 1) 2 1 (2/5) 0 0 ≠
      (fun i => if i = 0 then (0 : ℝ) else 1) 0 := by
  have hsz : kernelSize (2/5) = 5 := by decide
  have hhf : kernelHalf (2/5) = 2 := by decide
  have hS : 0 < gaussianKernelSum (2/5) := by
    rw [gaussianKernelSum, hsz]
    refine Finset.sum_pos (fun i _ => Real.exp_pos _) ⟨0, Finset.mem_range.mpr (by norm_num)⟩
  have hk : ∀ k, 0 < gaussianKernel (2/5) k := fun k => by
    unfold gaussianKernel gaussianKernelRaw
    exact div_pos (Real.exp_pos _) hS
  have hsum : ∑ k ∈ Finset.range 5, gaussianKernel (2/5) k = 1 := by
    unfold gaussianKernel
    rw [← Finset.sum_div,
      show ∑ k ∈ Finset.range 5, gaussianKernelRaw (2/5) k = gaussianKernelSum (2/5) from by
        rw [gaussianKernelSum, hsz]]
    exact div_self hS.ne'
  have hmain : separableBlur (fun i => if i = 0 then (0 : ℝ) else 1) 2 1 (2/5) 0 0 =
      (gaussianKernel (2/5) 3 + gaussianKernel (2/5) 4) *
        ∑ k ∈ Finset.range 5, gaussianKernel (2/5) k := by
    unfold separableBlur separableBlurH
    rw [hsz, hhf]
    simp only [Finset.sum_range_succ, Finset.sum_range_zero]
    norm_num [clampIdx]
    ring
  refine ⟨by norm_num, ?_⟩
  simp only [if_pos rfl]
  rw [hmain, hsum, mul_one]
  exact (add_pos (hk 3) (hk 4)).ne'

/-- Claim C5 (amended): it is `gaussBlur` of `bedazzle.js` that implements
the small-sigma cutoff — for every buffer and every `sigma < 0.5` it returns
an unmodified copy of its input. -/
theorem gaussBlur_small_sigma_identity (src : ℕ → ℝ) (w h : ℕ) (sigma : ℚ)
    (hs : sigma < 1/2) : gaussBlur src w h sigma = src := by
  unfold gaussBlur
  rw [if_pos (by norm_num at hs ⊢; exact hs)]

/-- Claim C5 witness: `gaussBlur` at `sigma = 0` is the identity on a
constant 1×1 buffer. -/
theorem gaussBlur_small_sigma_identity_witness :
    gaussBlur (fun _ => (1 : ℝ)) 1 1 0 = (fun _ => (1 : ℝ)) :=
  gaussBlur_small_sigma_identity (fun _ => (1 : ℝ)) 1 1 0 (by norm_num)

/-- Claim C4 (counterexample): on a uniform opaque pure-red image, threshold
mode with threshold 60 places nothing — the sampler compares the BT.601
encoded-value brightness `0.299·255 = 76.245`, which is not below 60 — while
the linear-light BT.709 luminance of pure red (the Luminance Extractor's
value, `0.2126`, i.e. `54.213` on the 0-255 scale) IS below 60 on either
scale, so the compared quantity cannot be the linearised BT.709 luminance. -/
theorem threshold_mode_uses_bt601_encoded :
    computeGemPositionsSq (fun _ => ⟨255, 0, 0, 255⟩) 10 10 10 10 4 0 Mode.threshold 60 none
      = [] ∧
    255 * luminance709 255 0 0 < 60 ∧ luminance709 255 0 0 < 60 ∧
    brightness 255 0 0 = 76.245 := by
  refine ⟨by decide, ?_, ?_, by decide⟩
  · unfold luminance709 srgbToLinear
    norm_num
  · unfold luminance709 srgbToLinear
    norm_num

/-- Claim C4 (amended): the per-cell quantity threshold mode compares against
the threshold is the area average, over the cell's disc footprint, of the
BT.601 brightness `0.299·R + 0.587·G + 0.114·B` of the raw encoded channel
values (no sRGB linearisation, no BT.709 weights): on a uniform image the
average equals that brightness exactly. -/
theorem thresholdStats_uniform_avg (r g b a imgW imgH : ℕ) (cx cy : ℤ) (R step : ℕ)
    (hcnt : (thresholdStats (fun _ => ⟨r, g, b, a⟩) imgW imgH cx cy R step).2.2 ≠ 0) :
    (thresholdStats (fun _ => ⟨r, g, b, a⟩) imgW imgH cx cy R step).1 /
      ((thresholdStats (fun _ => ⟨r, g, b, a⟩) imgW imgH cx cy R step).2.2 : ℚ) =
      brightness r g b := by
  unfold thresholdStats at hcnt ⊢
  simp only [pixelAt] at hcnt ⊢
  rw [List.map_const', List.sum_replicate, nsmul_eq_mul]
  exact mul_div_cancel_left₀ _ (Nat.cast_ne_zero.mpr hcnt)

/-- Claim C4 witness: the cell at pixel centre `(2, 2)` with footprint radius
2 and step 1 on a 10×10 uniform red image has 13 samples and area-averaged
brightness `0.299·255`. -/
theorem thresholdStats_uniform_avg_witness :
    (thresholdStats (fun _ => ⟨255, 0, 0, 255⟩) 10 10 2 2 2 1).1 /
      ((thresholdStats (fun _ => ⟨255, 0, 0, 255⟩) 10 10 2 2 2 1).2.2 : ℚ) =
      brightness 255 0 0 :=
  thresholdStats_uniform_avg 255 0 0 255 10 10 2 2 2 1 (by decide)

theorem tileCount_mul (m t : ℕ) (hm : 0 < m) (ht : 0 < t) : tileCount (m * t) t = m := by
  unfold tileCount
  rw [Nat.mul_div_cancel m ht]
  omega

theorem tileEdge_mul (m t tx : ℕ) (hm : 0 < m) : tileEdge (m * t) m tx = tx * t := by
  unfold tileEdge
  have hm0 : (m : ℚ) ≠ 0 := Nat.cast_ne_zero.mpr hm.ne'
  have h1 : (tx : ℚ) * (((m * t : ℕ) : ℚ) / (m : ℚ)) = (((tx * t : ℕ) : ℤ) : ℚ) := by
    push_cast
    field_simp
  rw [h1, jsRound_intCast, Int.toNat_natCast]

theorem tileHist_const (gray : ℕ → ℕ) (g m k t tx ty : ℕ)
    (htx : tx < m) (hty : ty < k)
    (hg : ∀ i < (m * t) * (k * t), gray i = g) (b : ℕ) :
    tileHist gray (m * t) (tx * t) ((tx + 1) * t) (ty * t) ((ty + 1) * t) b =
      if g = b then ((t * t : ℕ) : ℚ) else 0 := by
  unfold tileHist
  have hrw : ∀ r ∈ Finset.Ico (ty * t) ((ty + 1) * t), ∀ c ∈ Finset.Ico (tx * t) ((tx + 1) * t),
      gray (r * (m * t) + c) = g := by
    intro r hr c hc
    rw [Finset.mem_Ico] at hr hc
    apply hg
    have hrk : r < k * t := lt_of_lt_of_le hr.2 (Nat.mul_le_mul_right t hty)
    have hcm : c < m * t := lt_of_lt_of_le hc.2 (Nat.mul_le_mul_right t htx)
    calc r * (m * t) + c < r * (m * t) + m * t := by omega
      _ = (r + 1) * (m * t) := by ring
      _ ≤ (k * t) * (m * t) := Nat.mul_le_mul_right _ (by omega)
      _ = (m * t) * (k * t) := by ring
  calc (∑ r ∈ Finset.Ico (ty * t) ((ty + 1) * t), ∑ c ∈ Finset.Ico (tx * t) ((tx + 1) * t),
        if gray (r * (m * t) + c) = b then (1 : ℚ) else 0)
      = ∑ r ∈ Finset.Ico (ty * t) ((ty + 1) * t), ∑ c ∈ Finset.Ico (tx * t) ((tx + 1) * t),
        (if g = b then (1 : ℚ) else 0) := by
        refine Finset.sum_congr rfl fun r hr => Finset.sum_congr rfl fun c hc => ?_
        rw [hrw r hr c hc]
    _ = if g = b then ((t * t : ℕ) : ℚ) else 0 := by
        rw [Finset.sum_const, Finset.sum_const, Nat.card_Ico, Nat.card_Ico]
        have hx : (tx + 1) * t - tx * t = t := by
          rw [Nat.add_one_mul]; omega
        have hy : (ty + 1) * t - ty * t = t := by
          rw [Nat.add_one_mul]; omega
        rw [hx, hy, smul_smul, nsmul_eq_mul]
        push_cast
        split_ifs <;> ring

theorem tileLutAt_uniform (gray : ℕ → ℕ) (g m k t : ℕ) (clip : ℚ)
    (ht : 0 < t) (hm : 0 < m) (hk : 0 < k)
    (hg : ∀ i < (m * t) * (k * t), gray i = g)
    (tx ty : ℕ) (htx : tx < m) (hty : ty < k) :
    tileLutAt gray (m * t) (k * t) clip t tx ty =
      histToLut (fun b => if g = b then ((t * t : ℕ) : ℚ) else 0) ((t * t : ℕ) : ℚ) clip := by
  simp only [tileLutAt]
  rw [tileCount_mul m t hm ht, tileCount_mul k t hk ht,
    tileEdge_mul m t tx hm, tileEdge_mul m t (tx + 1) hm,
    tileEdge_mul k t ty hk, tileEdge_mul k t (ty + 1) hk]
  have hxs : (tx + 1) * t - tx * t = t := by rw [Nat.add_one_mul]; omega
  have hys : (ty + 1) * t - ty * t = t := by rw [Nat.add_one_mul]; omega
  rw [hxs, hys]
  have hhist : tileHist gray (m * t) (tx * t) ((tx + 1) * t) (ty * t) ((ty + 1) * t) =
      fun b => if g = b then ((t * t : ℕ) : ℚ) else 0 :=
    funext fun b => tileHist_const gray g m k t tx ty htx hty hg b
  rw [hhist]

theorem blend_const_eq (V : ℕ) (hV : V < 256) (ax ay : ℚ) :
    toUint8 (jsRound (((V : ℚ) * (1 - ax) + (V : ℚ) * ax) * (1 - ay) +
      ((V : ℚ) * (1 - ax) + (V : ℚ) * ax) * ay)) = V := by
  rw [show ((V : ℚ) * (1 - ax) + (V : ℚ) * ax) * (1 - ay) +
      ((V : ℚ) * (1 - ax) + (V : ℚ) * ax) * ay = (((V : ℤ)) : ℚ) by push_cast; ring]
  rw [jsRound_intCast, toUint8_of_mem _ (by positivity) (by exact_mod_cast hV),
    Int.toNat_natCast]

/-- Claim C3 (counterexample): CLAHE on the uniform gray-10 2×2 image with
tile size 2 (tile-aligned) and clipping disabled maps every pixel through the
tile's equalisation CDF, sending 10 to 255 — not back to 10. -/
theorem applyClahe_uniform_not_identity :
    applyClahe (fun _ => 10) 2 2 0 2 0 0 = 255 ∧
    applyClahe (fun _ => 10) 2 2 0 2 0 0 ≠ 10 := by
  have h : applyClahe (fun _ => 10) 2 2 0 2 0 0 = 255 := by decide
  exact ⟨h, by rw [h]; decide⟩

/-- Claim C3 (amended): CLAHE on a uniform-gray tile-aligned image returns a
UNIFORM image — every output pixel is the single tile table's value at `g`
(`claheConstVal g t clip`), which in general differs from `g`. -/
theorem applyClahe_uniform (gray : ℕ → ℕ) (g m k t w h : ℕ) (clip : ℚ)
    (ht : 0 < t) (hm : 0 < m) (hk : 0 < k) (hw : w = m * t) (hh : h = k * t)
    (hg : ∀ i < w * h, gray i = g) :
    ∀ x < w, ∀ y < h, applyClahe gray w h clip t x y = claheConstVal g t clip := by
  subst hw hh
  intro x hx y hy
  have hpx : gray (y * (m * t) + x) = g := by
    apply hg
    calc y * (m * t) + x < y * (m * t) + m * t := by omega
      _ = (y + 1) * (m * t) := by ring
      _ ≤ (k * t) * (m * t) := Nat.mul_le_mul_right _ (by omega)
      _ = (m * t) * (k * t) := by ring
  simp only [applyClahe, tileCount_mul m t hm ht, tileCount_mul k t hk ht, hpx]
  set ftx : ℚ :=
    (((x : ℕ) : ℚ) - ((m * t : ℕ) : ℚ) / (m : ℚ) / 2) / (((m * t : ℕ) : ℚ) / (m : ℚ)) with hftx
  set fty : ℚ :=
    (((y : ℕ) : ℚ) - ((k * t : ℕ) : ℚ) / (k : ℚ) / 2) / (((k * t : ℕ) : ℚ) / (k : ℚ)) with hfty
  set tx0 : ℕ := (max 0 (min ((m : ℤ) - 1) ⌊ftx⌋)).toNat with htx0
  set ty0 : ℕ := (max 0 (min ((k : ℤ) - 1) ⌊fty⌋)).toNat with hty0
  have htx0m : tx0 < m := by omega
  have hty0k : ty0 < k := by omega
  have htx1m : min (m - 1) (tx0 + 1) < m := by omega
  have hty1k : min (k - 1) (ty0 + 1) < k := by omega
  rw [tileLutAt_uniform gray g m k t clip ht hm hk hg tx0 ty0 htx0m hty0k,
    tileLutAt_uniform gray g m k t clip ht hm hk hg _ ty0 htx1m hty0k,
    tileLutAt_uniform gray g m k t clip ht hm hk hg tx0 _ htx0m hty1k,
    tileLutAt_uniform gray g m k t clip ht hm hk hg _ _ htx1m hty1k]
  exact blend_const_eq (claheConstVal g t clip) (toUint8_lt _) _ _

/-- Claim C3 witness: the uniform gray-10 2×2 image with tile size 2 and
clipping disabled comes out uniform at pixel `(1, 0)` with value
`claheConstVal 10 2 0`. -/
theorem applyClahe_uniform_witness :
    applyClahe (fun _ => 10) 2 2 0 2 1 0 = claheConstVal 10 2 0 :=
  applyClahe_uniform (fun _ => 10) 10 1 1 2 2 2 0 (by decide) (by decide) (by decide)
    (by decide) (by decide) (fun i _ => rfl) 1 (by decide) 0 (by decide)

end ClaimProofs

end Lazar
